import Mathlib

/-!
Shallow embedding of src/learning.py (LSTM + DNN training orchestration over
Wikipedia revision data) and proofs about its dataset preparation, training
loop, evaluation pass and metrics glue.

Modelling conventions:
* numpy 1-d float arrays become `List ℚ`; the history matrix becomes a list of
  rows.
* The LSTM (lstm.py) and the DNN (nn_base.py) are opaque collaborators: their
  parameter state is an abstract type, forward is pure, and backward returns a
  new parameter state (the source mutates parameters only in the backward
  calls).  Training and evaluation are parameterised over these models, and
  every encoder / predictor invocation made by the loops is recorded in an
  explicit call trace.
* `random.shuffle`, `random.sample` and `np.random.shuffle` are modelled as
  oracle functions; theorems assume only that a shuffle permutes its input and
  that a sample of size n returns n elements of its input.
* An absent (falsy) target label is modelled as the rational 0, matching the
  `if not yt: continue` guards.
-/

/-- A 1-d numpy array of floats. -/
abbrev Vec := List ℚ

/-- A history matrix: one feature row per past revision. -/
abbrev Mat := List Vec

/-- One author entry `(author, (x_mat, fy, yt))` of the data list. -/
structure Item where
  author : String
  x_mat : Mat
  fy : Vec
  yt : ℚ
deriving DecidableEq

/-- A recorded invocation of one of the two opaque sub-models. -/
inductive MCall where
  | encFwd (x : Mat)
  | encBwd (g : Vec) (lf : ℚ)
  | nnFwd (v : Vec)
  | nnBwd (dy : ℚ)
deriving DecidableEq

/-- Opaque sequence encoder (lstm.py LSTM): parameters of type S, pure
forward, parameter-mutating backward with a learning-rate scale. -/
structure EncoderModel (S : Type) where
  forward : S → Mat → Vec
  backward : S → Vec → ℚ → S

/-- Opaque scalar predictor (nn_base.py DNN): parameters of type T, pure
forward, backward taking the cached input and the scalar loss gradient and
returning the new parameters plus the gradient with respect to the input. -/
structure PredictorModel (T : Type) where
  forward : T → Vec → ℚ
  backward : T → Vec → ℚ → T × Vec

/-- Python slice `l[:k]` where `k` may be `None` (whole list) or a possibly
negative int (`l[:-m]` keeps all but the final m entries). -/
def pyTake (k : Option ℤ) (l : Vec) : Vec :=
  match k with
  | none => l
  | some n => if 0 ≤ n then l.take n.toNat else l.take (l.length - n.natAbs)

/-- Model of `np.resize(v, n)`: cycle v to length n.  (For an empty v the
source could only reach this with n = 0, where the result is empty.) -/
def npResize (v : Vec) (n : ℕ) : Vec :=
  if v.length = 0 then List.replicate n 0
  else (List.range n).map (fun i => v.getD (i % v.length) 0)

/-- The guard `k > 0 or k is None` (learning.py lines 125, 137, 151, 227). -/
def posK (k : Option ℤ) : Bool :=
  match k with
  | none => true
  | some n => decide (0 < n)

/-- The guard `k > 0` alone, false for `k is None` (Python 2: None > 0 is
False); used by the unparenthesised test condition on line 239. -/
def kGtZero (k : Option ℤ) : Bool :=
  match k with
  | none => false
  | some n => decide (0 < n)

/-- learning.py `_learning_factor`: `np.square(weight_value)`. -/
def learning_factor (weight_value : ℚ) : ℚ := weight_value ^ 2

/-- The forward quantities a single item produces (lines 124-146 of the
training loop; lines 226-247 of the evaluation pass). -/
structure FwdCalc where
  nnet_input : Vec
  y : ℚ
  ytn : ℚ
  e : ℚ
  Y : Vec
deriving DecidableEq

/-- Forward portion of one training step (learning.py lines 124-146):
encoder output Y, predictor input, prediction y, normalised target and
squared error.  `fix_bit_val` is the fixed bit-value vector; the source
passes it through `np.array` unchanged. -/
def train_item_forward {S T : Type} (enc : EncoderModel S) (pred : PredictorModel T)
    (s : S) (t : T) (k : Option ℤ) (quality : Bool) (fix_bit_val : Option Vec)
    (it : Item) : FwdCalc :=
  let Y : Vec := if posK k && fix_bit_val.isNone then enc.forward s it.x_mat else []
  let nnet_input : Vec :=
    match fix_bit_val with
    | none => pyTake k Y ++ it.fy
    | some v => v ++ it.fy
  let y := pred.forward t nnet_input
  let ytn := if posK k && quality then (it.yt + 1) / 2 else it.yt
  ⟨nnet_input, y, ytn, (y - ytn) ^ 2, Y⟩

/-- Forward pass of the evaluation loop for one item (learning.py lines
226-247).  Two deliberate differences from `train_item_forward`, both taken
from the source: the normalisation condition on line 239 lacks parentheses,
so it reads `(k > 0) or (k is None and quality)`; and line 234 wraps
`fix_bit_val` in an extra list, `np.array([fix_bit_val])`, which is a 2-d
array whose concatenation with the 1-d `fy` raises a ValueError. -/
def test_item_forward {S T : Type} (enc : EncoderModel S) (pred : PredictorModel T)
    (s : S) (t : T) (k : Option ℤ) (quality : Bool) (fix_bit_val : Option Vec)
    (it : Item) : Except String FwdCalc :=
  let Y : Vec := if posK k && fix_bit_val.isNone then enc.forward s it.x_mat else []
  match fix_bit_val with
  | none =>
    let nnet_input : Vec := pyTake k Y ++ it.fy
    let y := pred.forward t nnet_input
    let ytn := if kGtZero k || (k.isNone && quality) then (it.yt + 1) / 2 else it.yt
    .ok ⟨nnet_input, y, ytn, (y - ytn) ^ 2, Y⟩
  | some _ => .error "ValueError: cannot concatenate 2-d np.array([fix_bit_val]) with 1-d fy"

/-- Mutable state carried across training steps: the two parameter states,
the loop variable `learning_factor` (initialised to 1.0 on line 94) and the
per-iteration error list. -/
structure TrainState (S T : Type) where
  lstm : S
  nnet : T
  lf : ℚ
  errors : List ℚ

/-- One body of the per-item training loop (learning.py lines 118-165),
returning the new state and the list of sub-model invocations it performed. -/
def train_step {S T : Type} (enc : EncoderModel S) (pred : PredictorModel T)
    (k : Option ℤ) (quality : Bool) (fix_bit_val : Option Vec) (weighted_learning : Bool)
    (st : TrainState S T) (it : Item) : TrainState S T × List MCall :=
  if it.yt = 0 then (st, [])
  else
    let c := train_item_forward enc pred st.lstm st.nnet k quality fix_bit_val it
    let dy := 2 * (c.y - c.ytn)
    let pb := pred.backward st.nnet c.nnet_input dy
    let fwdEvs : List MCall :=
      if posK k && fix_bit_val.isNone then [MCall.encFwd it.x_mat] else []
    if posK k then
      -- back_el = np.zeros(Y.shape); bp_res = np.resize(bp_res, Y.shape);
      -- back_el[:k] = bp_res[:k]
      let bp := npResize pb.2 c.Y.length
      let back_el := pyTake k bp ++ List.replicate (c.Y.length - (pyTake k bp).length) 0
      let lf' := if weighted_learning
        then learning_factor ((it.fy.getD 3 0 + it.fy.getD 4 0) / 2)
        else st.lf
      (⟨enc.backward st.lstm back_el lf', pb.1, lf', st.errors ++ [c.e]⟩,
        fwdEvs ++ [MCall.nnFwd c.nnet_input, MCall.nnBwd dy, MCall.encBwd back_el lf'])
    else
      (⟨st.lstm, pb.1, st.lf, st.errors ++ [c.e]⟩,
        fwdEvs ++ [MCall.nnFwd c.nnet_input, MCall.nnBwd dy])

/-- The inner `for cnt, (author, (x_mat, fy, yt)) in enumerate(data_list)`
loop, threading state and accumulating the call trace. -/
def train_iter_items {S T : Type} (enc : EncoderModel S) (pred : PredictorModel T)
    (k : Option ℤ) (quality : Bool) (fix_bit_val : Option Vec) (weighted_learning : Bool) :
    List Item → TrainState S T × List MCall → TrainState S T × List MCall
  | [], p => p
  | it :: rest, p =>
    let r := train_step enc pred k quality fix_bit_val weighted_learning p.1 it
    train_iter_items enc pred k quality fix_bit_val weighted_learning rest (r.1, p.2 ++ r.2)

/-- Result of a whole training run: final state, the (repeatedly shuffled)
data list, and the trace of all sub-model invocations. -/
structure RunOut (S T : Type) where
  state : TrainState S T
  data : List Item
  trace : List MCall

/-- The outer `for iteration in range(N)` loop (learning.py lines 109-177):
shuffle the list in place, reset the error list, run all items.  The shuffle
oracle receives the iteration index and the current list. -/
def train_loop {S T : Type} (enc : EncoderModel S) (pred : PredictorModel T)
    (shuffle : ℕ → List Item → List Item)
    (k : Option ℤ) (quality : Bool) (fix_bit_val : Option Vec) (weighted_learning : Bool) :
    ℕ → ℕ → TrainState S T → List Item → List MCall → RunOut S T
  | _, 0, st, d, tr => ⟨st, d, tr⟩
  | i, n + 1, st, d, tr =>
    let d' := shuffle i d
    let p := train_iter_items enc pred k quality fix_bit_val weighted_learning d'
      (⟨st.lstm, st.nnet, st.lf, []⟩, tr)
    train_loop enc pred shuffle k quality fix_bit_val weighted_learning (i + 1) n p.1 d' p.2

/-- learning.py `_train_nn_with_k_lstm_bits`: train for N iterations starting
from the given (randomly initialised, hence parameter) LSTM and DNN states
with `learning_factor = 1.0`.  The returned state holds the trained pair and
the last iteration's error list.  (For N = 0 the source would raise a
NameError on the undefined `errors`; we return the empty list.) -/
def train_nn_with_k_lstm_bits {S T : Type} (enc : EncoderModel S) (pred : PredictorModel T)
    (shuffle : ℕ → List Item → List Item) (s0 : S) (t0 : T) (data : List Item)
    (k : Option ℤ) (N : ℕ) (quality : Bool) (fix_bit_val : Option Vec)
    (weighted_learning : Bool) : RunOut S T :=
  train_loop enc pred shuffle k quality fix_bit_val weighted_learning 0 N ⟨s0, t0, 1, []⟩ data []

/-- Parallel result lists built by the evaluation pass. -/
structure TestAcc where
  errors : List ℚ
  y_pred : List ℚ
  y_true : List ℚ
  label_weights : List ℚ
deriving DecidableEq

/-- One body of the evaluation loop (learning.py lines 221-254): skip falsy
targets, run the forward pass, append error / prediction / normalised target
and the size-of-change weight `np.average((fy[3], fy[4]))`. -/
def test_step {S T : Type} (enc : EncoderModel S) (pred : PredictorModel T)
    (s : S) (t : T) (k : Option ℤ) (quality : Bool) (fix_bit_val : Option Vec)
    (acc : TestAcc) (it : Item) : Except String TestAcc × List MCall :=
  if it.yt = 0 then (.ok acc, [])
  else
    let fwdEvs : List MCall :=
      if posK k && fix_bit_val.isNone then [MCall.encFwd it.x_mat] else []
    match test_item_forward enc pred s t k quality fix_bit_val it with
    | .error m => (.error m, fwdEvs)
    | .ok c =>
      let update_size := (it.fy.getD 3 0 + it.fy.getD 4 0) / 2
      (.ok ⟨acc.errors ++ [c.e], acc.y_pred ++ [c.y], acc.y_true ++ [c.ytn],
            acc.label_weights ++ [update_size]⟩,
        fwdEvs ++ [MCall.nnFwd c.nnet_input])

/-- learning.py `_test_nn_with_k_lstm_bits`: fold the evaluation step over the
items; an exception aborts the loop. -/
def test_nn_with_k_lstm_bits {S T : Type} (enc : EncoderModel S) (pred : PredictorModel T)
    (s : S) (t : T) (k : Option ℤ) (quality : Bool) (fix_bit_val : Option Vec) :
    List Item → TestAcc → Except String TestAcc × List MCall
  | [], acc => (.ok acc, [])
  | it :: rest, acc =>
    match test_step enc pred s t k quality fix_bit_val acc it with
    | (.ok acc', evs) =>
      let r := test_nn_with_k_lstm_bits enc pred s t k quality fix_bit_val rest acc'
      (r.1, evs ++ r.2)
    | (.error m, evs) => (.error m, evs)

/-- learning.py `_expand_to_all` (lines 326-335): for every entry append one
example per history row, built from `row[:-2]` and `row[-1]`, then the
current-revision example with label `(yt + 1) / 2`.  (`row[-1]` of an empty
row would raise in Python; rows are feature vectors of arity 14/15, and we
model the read with default 0.) -/
def expand_to_all (items : List Item) : List Item :=
  items.foldl
    (fun acc it =>
      (acc ++ it.x_mat.map
        (fun row => Item.mk it.author [] row.dropLast.dropLast (row.getLastD 0)))
        ++ [Item.mk it.author [] it.fy ((it.yt + 1) / 2)])
    []

/-- learning.py `_rebalance_data` (lines 349-364): split into `yt < 0.5` and
`yt > 0.5`, downsample the larger side to the size of the smaller via
`random.sample`, concatenate, and apply `np.random.shuffle` five times. -/
def rebalance_data (sample : List Item → ℕ → List Item)
    (shuffle : ℕ → List Item → List Item) (items : List Item) : List Item :=
  let neg_items := items.filter (fun it => decide (it.yt < 1/2))
  let pos_items := items.filter (fun it => decide (it.yt > 1/2))
  let np : List Item × List Item :=
    if neg_items.length ≤ pos_items.length
    then (neg_items, sample pos_items neg_items.length)
    else (sample neg_items pos_items.length, pos_items)
  (List.range 5).foldl (fun l i => shuffle i l) (np.1 ++ np.2)

/-- Modelled from the spec: sklearn.metrics.precision_recall_fscore_support is
an external library, out of scope per the spec (§1, §6 metrics contract).
Per-class precision, recall and F1 over the classes 0 and 1 of binarised
labels; an empty denominator yields 0. -/
def prfsStat (y_true y_pred : List ℕ) (c : ℕ) : ℚ × ℚ × ℚ :=
  let pairs := y_true.zip y_pred
  let tp : ℚ := ((pairs.filter (fun ab => ab.1 == c && ab.2 == c)).length : ℕ)
  let fp : ℚ := ((pairs.filter (fun ab => !(ab.1 == c) && ab.2 == c)).length : ℕ)
  let fnn : ℚ := ((pairs.filter (fun ab => ab.1 == c && !(ab.2 == c))).length : ℕ)
  let prec := if tp + fp = 0 then 0 else tp / (tp + fp)
  let recl := if tp + fnn = 0 then 0 else tp / (tp + fnn)
  let f1 := if prec + recl = 0 then 0 else 2 * prec * recl / (prec + recl)
  (prec, recl, f1)

/-- Modelled from the spec: the per-class arrays returned by
precision_recall_fscore_support for classes [0, 1]. -/
def precision_recall_fscore_support (y_true y_pred : List ℕ) :
    List ℚ × List ℚ × List ℚ :=
  ([(prfsStat y_true y_pred 0).1, (prfsStat y_true y_pred 1).1],
   [(prfsStat y_true y_pred 0).2.1, (prfsStat y_true y_pred 1).2.1],
   [(prfsStat y_true y_pred 0).2.2, (prfsStat y_true y_pred 1).2.2])

/-- learning.py `_error_measurement` (lines 427-444): binarise predictions and
truths with `1 if i < 0.5 else 0` and delegate to the metrics routine.  The
`label_weights` argument is accepted but never used by the source. -/
def error_measurement (y_pred y_true label_weights : List ℚ) :
    List ℚ × List ℚ × List ℚ :=
  let Y_pred := y_pred.map (fun i => if i < 1/2 then (1 : ℕ) else 0)
  let Y_true := y_true.map (fun i => if i < 1/2 then (1 : ℕ) else 0)
  precision_recall_fscore_support Y_true Y_pred

/-- Modelled from the spec: nn_base.py (the DNN class) is not under src/.
Minimal predictor satisfying the §6 ScalarPredictor contract: parameters are
a weight vector with a per-parameter running average of squared gradients
("AdaDelta-style" adaptive update, §4.2 / glossary); forward is the linear
read-out of the input against the weights; backward applies the adaptive
update and returns the gradient with respect to the input. -/
structure DNNModel where
  w : Vec
  eg2 : Vec
deriving DecidableEq

/-- Modelled from the spec: parameter initialisation at input width n (the
source initialises randomly; we fix the zero state). -/
def dnnInit (n : ℕ) : DNNModel := ⟨List.replicate n 0, List.replicate n 0⟩

/-- Modelled from the spec: linear forward read-out. -/
def dnnForward (st : DNNModel) (x : Vec) : ℚ :=
  ((List.range st.w.length).map (fun i => st.w.getD i 0 * x.getD i 0)).sum

/-- Modelled from the spec: per-parameter adaptive backward update.  The
gradient of parameter i is `dy * x i`; its running square average decays with
factor 9/10; the effective step divides by `1 + eg2`. -/
def dnnBackward (st : DNNModel) (x : Vec) (dy : ℚ) : DNNModel × Vec :=
  let eg2' := (List.range st.w.length).map
    (fun i => (9/10) * st.eg2.getD i 0 + (1/10) * (dy * x.getD i 0) ^ 2)
  let w' := (List.range st.w.length).map
    (fun i => st.w.getD i 0 - (dy * x.getD i 0) / (1 + eg2'.getD i 0))
  (⟨w', eg2'⟩, (List.range x.length).map (fun i => dy * st.w.getD i 0))

/-- The spec-modelled DNN packaged as a predictor model. -/
def dnnPredictor : PredictorModel DNNModel := ⟨dnnForward, dnnBackward⟩

/-- Concrete encoder instance over rational state used to evaluate runs on
explicit inputs: forward emits a fixed two-entry output, backward bumps the
state. -/
def encQ : EncoderModel ℚ := ⟨fun _ _ => [0, 0], fun s _ _ => s + 1⟩

/-- Concrete predictor instance over rational state used to evaluate runs on
explicit inputs. -/
def predQ : PredictorModel ℚ := ⟨fun t _ => t, fun t _ dy => (t + dy, [dy])⟩

/-- Shuffle oracle that leaves the list unchanged (a permutation). -/
def idShuffle : ℕ → List Item → List Item := fun _ l => l

/-- Sample oracle that takes the first n elements. -/
def takeSample : List Item → ℕ → List Item := fun l n => l.take n

/-- Predicate picking out encoder backward invocations in a trace. -/
def isEncBwd : MCall → Bool
  | .encBwd _ _ => true
  | _ => false

/-- Predicate picking out predictor backward invocations in a trace. -/
def isNnBwd : MCall → Bool
  | .nnBwd _ => true
  | _ => false

/-- The learning-rate scales of the encoder backward calls of a trace. -/
def encBwdScales (l : List MCall) : List ℚ :=
  l.filterMap (fun ev => match ev with | .encBwd _ lf => some lf | _ => none)

/-- C9: the metrics computation is independent of its label_weights argument:
two calls with the same predictions and truths but any two weight lists
return the same (precision, recall, fscore); the source never reads the
weights. -/
theorem C9_weights_ignored (y_pred y_true w1 w2 : List ℚ) :
    error_measurement y_pred y_true w1 = error_measurement y_pred y_true w2 := rfl

/-- C8: an item whose target label is falsy (modelled: yt = 0) is skipped
silently by both the training step and the evaluation step: the state and
accumulators are unchanged, no sub-model call is recorded, and the
evaluation step returns without error. -/
theorem C8_skip_falsy {S T : Type} (enc : EncoderModel S) (pred : PredictorModel T)
    (k : Option ℤ) (q : Bool) (fbv : Option Vec) (w : Bool) (st : TrainState S T)
    (s : S) (t : T) (acc : TestAcc) (it : Item) (h : it.yt = 0) :
    train_step enc pred k q fbv w st it = (st, [])
    ∧ test_step enc pred s t k q fbv acc it = (.ok acc, []) := by
  constructor <;> simp [train_step, test_step, h]

/-- Witness for C8 at a concrete falsy-target item. -/
theorem C8_skip_falsy_witness :
    train_step encQ predQ none true none false ⟨0, 0, 1, []⟩ ⟨"a", [], [], 0⟩ = (⟨0, 0, 1, []⟩, [])
    ∧ test_step encQ predQ 0 0 none true none ⟨[], [], [], []⟩ ⟨"a", [], [], 0⟩
        = (.ok ⟨[], [], [], []⟩, []) :=
  C8_skip_falsy encQ predQ none true none false ⟨0, 0, 1, []⟩ 0 0 ⟨[], [], [], []⟩
    ⟨"a", [], [], 0⟩ rfl

/-- C1 fails on the code: in a run with fix_bit_val set and k = 1 on one
item with a nonzero target, the encoder backward IS invoked (line 151 of the
source checks only `k > 0 or k is None`, not fix_bit_val), and with a
backward that bumps the state, the encoder state after the run differs from
its initial value 0. -/
theorem C1_counterexample :
    (train_nn_with_k_lstm_bits encQ predQ idShuffle 0 0 [⟨"a", [[1]], [1, 2, 3, 4, 5], 1⟩]
      (some 1) 1 true (some [5]) false).trace.countP isEncBwd = 1
    ∧ (train_nn_with_k_lstm_bits encQ predQ idShuffle 0 0 [⟨"a", [[1]], [1, 2, 3, 4, 5], 1⟩]
      (some 1) 1 true (some [5]) false).state.lstm ≠ 0 := by
  norm_num [train_nn_with_k_lstm_bits, train_loop, train_iter_items, train_step,
    train_item_forward, pyTake, npResize, posK, encQ, predQ, idShuffle, isEncBwd,
    learning_factor, List.countP, List.countP.go]

/-- C2 fails on the code: with k = 1, quality = False, fix_bit_val = None and
target -1, the evaluation pass normalises the target (unparenthesised
condition on line 239) while the training forward does not, so the squared
errors differ: the evaluation step yields e = 0 where training step 6 yields
e = 1. -/
theorem C2_counterexample :
    ((test_item_forward encQ predQ 0 0 (some 1) false none
        ⟨"a", [[1]], [1, 2, 3, 4, 5], -1⟩).toOption.map FwdCalc.e) = some 0
    ∧ (train_item_forward encQ predQ 0 0 (some 1) false none
        ⟨"a", [[1]], [1, 2, 3, 4, 5], -1⟩).e = 1 := by
  norm_num [test_item_forward, train_item_forward, pyTake, posK, kGtZero, encQ, predQ,
    Except.toOption]

/-- C4 fails on the spec-modelled predictor: one iteration with k = 0 over a
single-item list with non-falsy target 1 but an all-zero feature vector
invokes the predictor backward once, yet the zero gradient leaves the
predictor parameter state exactly equal to its initial value, so no probe
forward output can differ; the encoder backward is (correctly) never
invoked. -/
theorem C4_counterexample :
    (train_nn_with_k_lstm_bits encQ dnnPredictor idShuffle 0 (dnnInit 12)
      [⟨"a", [], [0, 0, 0, 0, 0], 1⟩] (some 0) 1 true none false).state.nnet = dnnInit 12
    ∧ (train_nn_with_k_lstm_bits encQ dnnPredictor idShuffle 0 (dnnInit 12)
      [⟨"a", [], [0, 0, 0, 0, 0], 1⟩] (some 0) 1 true none false).trace.countP isNnBwd = 1
    ∧ (train_nn_with_k_lstm_bits encQ dnnPredictor idShuffle 0 (dnnInit 12)
      [⟨"a", [], [0, 0, 0, 0, 0], 1⟩] (some 0) 1 true none false).trace.countP isEncBwd = 0 := by
  norm_num [train_nn_with_k_lstm_bits, train_loop, train_iter_items, train_step,
    train_item_forward, pyTake, posK, encQ, dnnPredictor, dnnInit, dnnForward, dnnBackward,
    idShuffle, isEncBwd, isNnBwd, List.countP, List.countP.go, List.range_succ,
    List.getD, List.replicate]

/-- Predicate picking out encoder forward invocations in a trace. -/
def isEncFwd : MCall → Bool
  | .encFwd _ => true
  | _ => false

lemma npResize_zero (v : Vec) : npResize v 0 = [] := by
  unfold npResize; split <;> simp

lemma pyTake_nil (k : Option ℤ) : pyTake k [] = [] := by
  unfold pyTake
  cases k with
  | none => rfl
  | some n => split <;> simp

/-- Invariant / trace-property preservation over the inner item loop. -/
lemma train_iter_items_invariant {S T : Type} (enc : EncoderModel S) (pred : PredictorModel T)
    (k : Option ℤ) (q : Bool) (fbv : Option Vec) (w : Bool)
    (I : TrainState S T → Prop) (P : MCall → Prop)
    (hI : ∀ st it, I st → I (train_step enc pred k q fbv w st it).1)
    (hP : ∀ st it, I st → ∀ ev ∈ (train_step enc pred k q fbv w st it).2, P ev) :
    ∀ (l : List Item) (st : TrainState S T) (tr : List MCall),
      I st → (∀ ev ∈ tr, P ev) →
      I (train_iter_items enc pred k q fbv w l (st, tr)).1
      ∧ ∀ ev ∈ (train_iter_items enc pred k q fbv w l (st, tr)).2, P ev := by
  intro l
  induction l with
  | nil => intro st tr hst htr; exact ⟨hst, htr⟩
  | cons it rest ih =>
    intro st tr hst htr
    simp only [train_iter_items]
    exact ih _ _ (hI st it hst) (by
      intro ev hev
      rcases List.mem_append.mp hev with h | h
      · exact htr ev h
      · exact hP st it hst ev h)

/-- Invariant / trace-property preservation over the whole N-iteration run. -/
lemma train_loop_invariant {S T : Type} (enc : EncoderModel S) (pred : PredictorModel T)
    (shuffle : ℕ → List Item → List Item)
    (k : Option ℤ) (q : Bool) (fbv : Option Vec) (w : Bool)
    (I : TrainState S T → Prop) (P : MCall → Prop)
    (hI : ∀ st it, I st → I (train_step enc pred k q fbv w st it).1)
    (hP : ∀ st it, I st → ∀ ev ∈ (train_step enc pred k q fbv w st it).2, P ev)
    (hIres : ∀ st : TrainState S T, I st → I ⟨st.lstm, st.nnet, st.lf, []⟩) :
    ∀ (n i : ℕ) (st : TrainState S T) (d : List Item) (tr : List MCall),
      I st → (∀ ev ∈ tr, P ev) →
      I (train_loop enc pred shuffle k q fbv w i n st d tr).state
      ∧ ∀ ev ∈ (train_loop enc pred shuffle k q fbv w i n st d tr).trace, P ev := by
  intro n
  induction n with
  | zero => intro i st d tr hst htr; exact ⟨hst, htr⟩
  | succ n ih =>
    intro i st d tr hst htr
    simp only [train_loop]
    have h := train_iter_items_invariant enc pred k q fbv w I P hI hP (shuffle i d)
      ⟨st.lstm, st.nnet, st.lf, []⟩ tr (hIres st hst) htr
    exact ih _ _ _ _ h.1 h.2

/-- The encoder state component is untouched by steps that never call the
encoder backward. -/
lemma train_iter_items_lstm {S T : Type} (enc : EncoderModel S) (pred : PredictorModel T)
    (k : Option ℤ) (q : Bool) (fbv : Option Vec) (w : Bool)
    (hstep : ∀ (st : TrainState S T) it, (train_step enc pred k q fbv w st it).1.lstm = st.lstm) :
    ∀ (l : List Item) (st : TrainState S T) (tr : List MCall),
      (train_iter_items enc pred k q fbv w l (st, tr)).1.lstm = st.lstm := by
  intro l
  induction l with
  | nil => intro st tr; rfl
  | cons it rest ih =>
    intro st tr
    simp only [train_iter_items]
    rw [ih]
    exact hstep st it

lemma train_loop_lstm {S T : Type} (enc : EncoderModel S) (pred : PredictorModel T)
    (shuffle : ℕ → List Item → List Item)
    (k : Option ℤ) (q : Bool) (fbv : Option Vec) (w : Bool)
    (hstep : ∀ (st : TrainState S T) it, (train_step enc pred k q fbv w st it).1.lstm = st.lstm) :
    ∀ (n i : ℕ) (st : TrainState S T) (d : List Item) (tr : List MCall),
      (train_loop enc pred shuffle k q fbv w i n st d tr).state.lstm = st.lstm := by
  intro n
  induction n with
  | zero => intro i st d tr; rfl
  | succ n ih =>
    intro i st d tr
    simp only [train_loop]
    rw [ih]
    exact train_iter_items_lstm enc pred k q fbv w hstep _ _ _

/-- With k neither positive nor None, a training step leaves the encoder
state unchanged. -/
lemma train_step_lstm_of_not_posK {S T : Type} (enc : EncoderModel S) (pred : PredictorModel T)
    (k : Option ℤ) (q : Bool) (fbv : Option Vec) (w : Bool)
    (hk : posK k = false) (st : TrainState S T) (it : Item) :
    (train_step enc pred k q fbv w st it).1.lstm = st.lstm := by
  by_cases hyt : it.yt = 0 <;> simp [train_step, hk, hyt]

/-- With k neither positive nor None, a training step records no encoder
backward call. -/
lemma train_step_no_encBwd_of_not_posK {S T : Type} (enc : EncoderModel S) (pred : PredictorModel T)
    (k : Option ℤ) (q : Bool) (fbv : Option Vec) (w : Bool)
    (hk : posK k = false) (st : TrainState S T) (it : Item) :
    ∀ ev ∈ (train_step enc pred k q fbv w st it).2, isEncBwd ev = false := by
  by_cases hyt : it.yt = 0 <;>
    simp [train_step, hk, hyt, isEncBwd]

/-- With fix_bit_val set, a training step records no encoder forward call. -/
lemma train_step_no_encFwd_of_fbv {S T : Type} (enc : EncoderModel S) (pred : PredictorModel T)
    (k : Option ℤ) (q : Bool) (v : Vec) (w : Bool) (st : TrainState S T) (it : Item) :
    ∀ ev ∈ (train_step enc pred k q (some v) w st it).2, isEncFwd ev = false := by
  by_cases hyt : it.yt = 0 <;> by_cases hk : posK k <;>
    simp [train_step, hk, hyt, isEncFwd]

/-- With fix_bit_val set, any encoder backward a training step records gets
the empty gradient vector: Y is never computed, so back_el has shape (0,). -/
lemma train_step_encBwd_nil_of_fbv {S T : Type} (enc : EncoderModel S) (pred : PredictorModel T)
    (k : Option ℤ) (q : Bool) (v : Vec) (w : Bool) (st : TrainState S T) (it : Item) :
    ∀ ev ∈ (train_step enc pred k q (some v) w st it).2, ∀ g lf, ev = MCall.encBwd g lf → g = [] := by
  by_cases hyt : it.yt = 0 <;> by_cases hk : posK k <;>
    simp [train_step, hk, hyt, train_item_forward, npResize_zero, pyTake_nil]

/-- C1 amended: in every training run with fix_bit_val set, the encoder
forward is never invoked, and any encoder backward that does occur (it does,
once per processed item, whenever k > 0 or k is None: line 151 does not test
fix_bit_val) receives the empty gradient vector; only when k is neither
positive nor None is the encoder backward also never invoked and the encoder
parameter state after the run equal to its state before. -/
theorem C1_amended {S T : Type} (enc : EncoderModel S) (pred : PredictorModel T)
    (shuffle : ℕ → List Item → List Item) (s0 : S) (t0 : T) (data : List Item)
    (k : Option ℤ) (N : ℕ) (q w : Bool) (v : Vec) :
    (∀ ev ∈ (train_nn_with_k_lstm_bits enc pred shuffle s0 t0 data k N q (some v) w).trace,
        isEncFwd ev = false)
    ∧ (∀ ev ∈ (train_nn_with_k_lstm_bits enc pred shuffle s0 t0 data k N q (some v) w).trace,
        ∀ g lf, ev = MCall.encBwd g lf → g = [])
    ∧ (posK k = false →
        (∀ ev ∈ (train_nn_with_k_lstm_bits enc pred shuffle s0 t0 data k N q (some v) w).trace,
            isEncBwd ev = false)
        ∧ (train_nn_with_k_lstm_bits enc pred shuffle s0 t0 data k N q (some v) w).state.lstm = s0) := by
  refine ⟨?_, ?_, ?_⟩
  · exact (train_loop_invariant enc pred shuffle k q (some v) w (fun _ => True)
      (fun ev => isEncFwd ev = false) (fun _ _ _ => trivial)
      (fun st it _ => train_step_no_encFwd_of_fbv enc pred k q v w st it)
      (fun _ _ => trivial) N 0 ⟨s0, t0, 1, []⟩ data [] trivial (by simp)).2
  · exact (train_loop_invariant enc pred shuffle k q (some v) w (fun _ => True)
      (fun ev => ∀ g lf, ev = MCall.encBwd g lf → g = []) (fun _ _ _ => trivial)
      (fun st it _ => train_step_encBwd_nil_of_fbv enc pred k q v w st it)
      (fun _ _ => trivial) N 0 ⟨s0, t0, 1, []⟩ data [] trivial (by simp)).2
  · intro hk
    constructor
    · exact (train_loop_invariant enc pred shuffle k q (some v) w (fun _ => True)
        (fun ev => isEncBwd ev = false) (fun _ _ _ => trivial)
        (fun st it _ => train_step_no_encBwd_of_not_posK enc pred k q (some v) w hk st it)
        (fun _ _ => trivial) N 0 ⟨s0, t0, 1, []⟩ data [] trivial (by simp)).2
    · exact train_loop_lstm enc pred shuffle k q (some v) w
        (fun st it => train_step_lstm_of_not_posK enc pred k q (some v) w hk st it)
        N 0 ⟨s0, t0, 1, []⟩ data []

/-- Witness for C1 amended: with fix_bit_val set, a concrete k = 1 run never
records the encoder forward on its history matrix, and a concrete k = 0 run
records no encoder backward at all and leaves the encoder state at its
initial value. -/
theorem C1_amended_witness :
    MCall.encFwd [[1]] ∉ (train_nn_with_k_lstm_bits encQ predQ idShuffle 0 0
        [⟨"a", [[1]], [1, 2, 3, 4, 5], 1⟩] (some 1) 1 true (some [5]) false).trace
    ∧ MCall.encBwd [] 1 ∉ (train_nn_with_k_lstm_bits encQ predQ idShuffle 0 0
        [⟨"a", [[1]], [1, 2, 3, 4, 5], 1⟩] (some 0) 1 true (some [5]) false).trace
    ∧ (train_nn_with_k_lstm_bits encQ predQ idShuffle 0 0
        [⟨"a", [[1]], [1, 2, 3, 4, 5], 1⟩] (some 0) 1 true (some [5]) false).state.lstm = 0 := by
  have h1 := (C1_amended encQ predQ idShuffle 0 0 [⟨"a", [[1]], [1, 2, 3, 4, 5], 1⟩]
    (some 1) 1 true false [5]).1
  have h0 := (C1_amended encQ predQ idShuffle 0 0 [⟨"a", [[1]], [1, 2, 3, 4, 5], 1⟩]
    (some 0) 1 true false [5]).2.2 rfl
  refine ⟨fun hc => ?_, fun hc => ?_, h0.2⟩
  · simpa [isEncFwd] using h1 _ hc
  · simpa [isEncBwd] using h0.1 _ hc

/-- C2 amended: with fix_bit_val absent, and quality set or k not an
explicit positive value, the evaluation pass computes exactly the same
predictor input, prediction, normalised target and squared error as the
forward portion of the training step.  (With quality unset and k a positive
int the unparenthesised condition on line 239 makes the targets differ; with
fix_bit_val set the two functions build different predictor inputs.) -/
theorem C2_amended {S T : Type} (enc : EncoderModel S) (pred : PredictorModel T)
    (s : S) (t : T) (k : Option ℤ) (quality : Bool) (it : Item)
    (h : quality = true ∨ kGtZero k = false) :
    test_item_forward enc pred s t k quality none it
      = .ok (train_item_forward enc pred s t k quality none it) := by
  have hcond : (kGtZero k || (k.isNone && quality)) = (posK k && quality) := by
    cases k with
    | none => simp [posK, kGtZero]
    | some n =>
      rcases h with h | h
      · subst h; simp [posK, kGtZero]
      · simp only [kGtZero, decide_eq_false_iff_not] at h
        simp [posK, kGtZero, h]
  simp [test_item_forward, train_item_forward, hcond]

/-- Witness for C2 amended at a concrete item with quality set. -/
theorem C2_amended_witness :
    test_item_forward encQ predQ 0 0 (some 2) true none ⟨"a", [[1]], [1, 2], 1⟩
      = .ok (train_item_forward encQ predQ 0 0 (some 2) true none ⟨"a", [[1]], [1, 2], 1⟩) :=
  C2_amended encQ predQ 0 0 (some 2) true ⟨"a", [[1]], [1, 2], 1⟩ (Or.inl rfl)

/-- A training step of an unweighted run does not change the learning-factor
loop variable. -/
lemma train_step_lf_of_unweighted {S T : Type} (enc : EncoderModel S) (pred : PredictorModel T)
    (k : Option ℤ) (q : Bool) (fbv : Option Vec) (st : TrainState S T) (it : Item) :
    (train_step enc pred k q fbv false st it).1.lf = st.lf := by
  by_cases hyt : it.yt = 0 <;> by_cases hk : posK k <;>
    simp [train_step, hk, hyt]

/-- In an unweighted run, every encoder backward recorded by a step whose
incoming learning factor is 1 carries scale 1. -/
lemma train_step_scale_of_unweighted {S T : Type} (enc : EncoderModel S) (pred : PredictorModel T)
    (k : Option ℤ) (q : Bool) (fbv : Option Vec) (st : TrainState S T) (it : Item)
    (hlf : st.lf = 1) :
    ∀ ev ∈ (train_step enc pred k q fbv false st it).2, ∀ g lf, ev = MCall.encBwd g lf → lf = 1 := by
  intro ev hev g lf heq
  subst heq
  by_cases hyt : it.yt = 0
  · simp [train_step, hyt] at hev
  · by_cases hk : posK k
    · simp [train_step, hyt, hk, hlf] at hev
      tauto
    · simp [train_step, hyt, hk] at hev

/-- C7: when weighted learning is on and the encoder participates (k positive
or None), the scale handed to the encoder backward by a training step on a
non-skipped item is exactly the square of the average of the two
size-of-change feature fields fy[3] and fy[4]; and in every unweighted run
every encoder backward in the whole trace carries the constant scale 1.0. -/
theorem C7_learning_factor_scale {S T : Type} (enc : EncoderModel S) (pred : PredictorModel T)
    (k : Option ℤ) (q : Bool) (fbv : Option Vec) (st : TrainState S T) (it : Item)
    (hk : posK k = true) (hyt : it.yt ≠ 0) :
    encBwdScales (train_step enc pred k q fbv true st it).2
      = [((it.fy.getD 3 0 + it.fy.getD 4 0) / 2) ^ 2]
    ∧ ∀ (shuffle : ℕ → List Item → List Item) (s0 : S) (t0 : T) (data : List Item) (N : ℕ),
        ∀ lf ∈ encBwdScales
          (train_nn_with_k_lstm_bits enc pred shuffle s0 t0 data k N q fbv false).trace,
          lf = 1 := by
  constructor
  · simp only [train_step, hk, if_true, if_neg hyt, encBwdScales, learning_factor]
    split <;> simp [encBwdScales]
  · intro shuffle s0 t0 data N lf hlf
    have main := (train_loop_invariant enc pred shuffle k q fbv false
      (fun st => st.lf = 1) (fun ev => ∀ g lf, ev = MCall.encBwd g lf → lf = 1)
      (fun st it hst => (train_step_lf_of_unweighted enc pred k q fbv st it).trans hst)
      (fun st it hst => train_step_scale_of_unweighted enc pred k q fbv st it hst)
      (fun st hst => hst) N 0 ⟨s0, t0, 1, []⟩ data [] rfl (by simp)).2
    rcases List.mem_filterMap.mp hlf with ⟨ev, hev, hsome⟩
    cases ev with
    | encBwd g lf' =>
      simp only [Option.some.injEq] at hsome
      exact hsome ▸ main _ hev g lf' rfl
    | encFwd x => simp at hsome
    | nnFwd v => simp at hsome
    | nnBwd dy => simp at hsome

/-- Witness for C7 at a concrete weighted step with k = 1. -/
theorem C7_learning_factor_scale_witness :
    encBwdScales (train_step encQ predQ (some 1) true none true ⟨0, 0, 1, []⟩
        ⟨"a", [[1]], [1, 2, 3, 4, 5], 1⟩).2
      = [((([1, 2, 3, 4, 5] : Vec).getD 3 0 + ([1, 2, 3, 4, 5] : Vec).getD 4 0) / 2) ^ 2] :=
  (C7_learning_factor_scale encQ predQ (some 1) true none ⟨0, 0, 1, []⟩
    ⟨"a", [[1]], [1, 2, 3, 4, 5], 1⟩ rfl (by norm_num)).1

lemma foldl_shuffle_perm (shuffle : ℕ → List Item → List Item)
    (Hsh : ∀ i l, List.Perm (shuffle i l) l) :
    ∀ (L : List ℕ) (l : List Item), List.Perm (L.foldl (fun acc i => shuffle i acc) l) l := by
  intro L
  induction L with
  | nil => intro l; exact List.Perm.refl l
  | cons i L ih => intro l; exact (ih (shuffle i l)).trans (Hsh i l)

/-- Master decomposition of `rebalance_data`: the result is a permutation of
a negative block and a positive block, both drawn from the input, both of
length `min |filter(< 1/2)| |filter(> 1/2)|`. -/
lemma rebalance_spec (sample : List Item → ℕ → List Item)
    (shuffle : ℕ → List Item → List Item) (items : List Item)
    (Hs : ∀ l n, n ≤ l.length → (sample l n).length = n ∧ ∀ x ∈ sample l n, x ∈ l)
    (Hsh : ∀ i l, List.Perm (shuffle i l) l) :
    ∃ ns ps : List Item,
      List.Perm (rebalance_data sample shuffle items) (ns ++ ps)
      ∧ (∀ x ∈ ns, x ∈ items ∧ x.yt < 1/2)
      ∧ (∀ x ∈ ps, x ∈ items ∧ x.yt > 1/2)
      ∧ ns.length = min (items.filter (fun it => decide (it.yt < 1/2))).length
          (items.filter (fun it => decide (it.yt > 1/2))).length
      ∧ ps.length = min (items.filter (fun it => decide (it.yt < 1/2))).length
          (items.filter (fun it => decide (it.yt > 1/2))).length := by
  have memNeg : ∀ x ∈ items.filter (fun it => decide (it.yt < 1/2)), x ∈ items ∧ x.yt < 1/2 := by
    intro x hx
    have h := List.mem_filter.mp hx
    exact ⟨h.1, of_decide_eq_true h.2⟩
  have memPos : ∀ x ∈ items.filter (fun it => decide (it.yt > 1/2)), x ∈ items ∧ x.yt > 1/2 := by
    intro x hx
    have h := List.mem_filter.mp hx
    exact ⟨h.1, of_decide_eq_true h.2⟩
  by_cases hle : (items.filter (fun it => decide (it.yt < 1/2))).length
      ≤ (items.filter (fun it => decide (it.yt > 1/2))).length
  · refine ⟨items.filter (fun it => decide (it.yt < 1/2)),
      sample (items.filter (fun it => decide (it.yt > 1/2)))
        (items.filter (fun it => decide (it.yt < 1/2))).length, ?_, memNeg, ?_, ?_, ?_⟩
    · unfold rebalance_data
      simp only [if_pos hle]
      exact foldl_shuffle_perm shuffle Hsh _ _
    · intro x hx
      exact memPos x ((Hs _ _ hle).2 x hx)
    · exact (min_eq_left hle).symm
    · rw [(Hs _ _ hle).1]
      exact (min_eq_left hle).symm
  · have hle' : (items.filter (fun it => decide (it.yt > 1/2))).length
        ≤ (items.filter (fun it => decide (it.yt < 1/2))).length := le_of_not_le hle
    refine ⟨sample (items.filter (fun it => decide (it.yt < 1/2)))
        (items.filter (fun it => decide (it.yt > 1/2))).length,
      items.filter (fun it => decide (it.yt > 1/2)), ?_, ?_, memPos, ?_, ?_⟩
    · unfold rebalance_data
      simp only [if_neg hle]
      exact foldl_shuffle_perm shuffle Hsh _ _
    · intro x hx
      exact memNeg x ((Hs _ _ hle').2 x hx)
    · rw [(Hs _ _ hle').1]
      exact (min_eq_right hle').symm
    · exact (min_eq_right hle').symm

lemma filter_neg_pos_length_le (items : List Item) :
    (items.filter (fun it => decide (it.yt < 1/2))).length
      + (items.filter (fun it => decide (it.yt > 1/2))).length ≤ items.length := by
  induction items with
  | nil => simp
  | cons a l ih =>
    have hcons : ∀ (p : Item → Bool), ((a :: l).filter p).length
        = (if p a then 1 else 0) + (l.filter p).length := by
      intro p
      by_cases hp : p a
      · simp [List.filter_cons, hp]
        omega
      · simp [List.filter_cons, hp]
    rw [hcons, hcons, List.length_cons]
    by_cases h1 : a.yt < 1/2
    · have h2 : ¬ (a.yt > 1/2) := fun h => absurd (h.trans h1) (lt_irrefl _)
      rw [if_pos (decide_eq_true h1), if_neg (fun hc => h2 (of_decide_eq_true hc))]
      omega
    · rw [if_neg (fun hc => h1 (of_decide_eq_true hc))]
      by_cases h3 : a.yt > 1/2
      · rw [if_pos (decide_eq_true h3)]
        omega
      · rw [if_neg (fun hc => h3 (of_decide_eq_true hc))]
        omega

/-- C3: the output of `_rebalance_data` holds equally many items with label
below 1/2 and items with label above 1/2, and is empty whenever either class
is absent from the input. -/
theorem C3_rebalance_balanced (sample : List Item → ℕ → List Item)
    (shuffle : ℕ → List Item → List Item) (items : List Item)
    (Hs : ∀ l n, n ≤ l.length → (sample l n).length = n ∧ ∀ x ∈ sample l n, x ∈ l)
    (Hsh : ∀ i l, List.Perm (shuffle i l) l) :
    (rebalance_data sample shuffle items).countP (fun it => decide (it.yt < 1/2))
      = (rebalance_data sample shuffle items).countP (fun it => decide (it.yt > 1/2))
    ∧ ((items.filter (fun it => decide (it.yt < 1/2)) = []
        ∨ items.filter (fun it => decide (it.yt > 1/2)) = []) →
        rebalance_data sample shuffle items = []) := by
  obtain ⟨ns, ps, hperm, hns, hps, hlns, hlps⟩ := rebalance_spec sample shuffle items Hs Hsh
  have hcns : ns.countP (fun it => decide (it.yt < 1/2)) = ns.length :=
    List.countP_eq_length.mpr (fun x hx => decide_eq_true (hns x hx).2)
  have hcps : ps.countP (fun it => decide (it.yt > 1/2)) = ps.length :=
    List.countP_eq_length.mpr (fun x hx => decide_eq_true (hps x hx).2)
  have hzns : ns.countP (fun it => decide (it.yt > 1/2)) = 0 :=
    List.countP_eq_zero.mpr (fun x hx => by
      simp only [decide_eq_true_eq]
      intro h; exact absurd (h.trans (hns x hx).2) (lt_irrefl _))
  have hzps : ps.countP (fun it => decide (it.yt < 1/2)) = 0 :=
    List.countP_eq_zero.mpr (fun x hx => by
      simp only [decide_eq_true_eq]
      intro h; exact absurd (h.trans (hps x hx).2) (lt_irrefl _))
  constructor
  · rw [hperm.countP_eq, hperm.countP_eq, List.countP_append, List.countP_append,
      hcns, hzns, hcps, hzps, hlns, hlps]
    omega
  · intro hempty
    have hmin : min (items.filter (fun it => decide (it.yt < 1/2))).length
        (items.filter (fun it => decide (it.yt > 1/2))).length = 0 := by
      rcases hempty with h | h <;> rw [h] <;> simp
    have : (ns ++ ps) = [] := by
      have h1 : ns = [] := List.length_eq_zero.mp (hlns.trans hmin)
      have h2 : ps = [] := List.length_eq_zero.mp (hlps.trans hmin)
      rw [h1, h2]; rfl
    exact (this ▸ hperm).eq_nil

/-- Witness for C3 at a concrete balanced two-item list. -/
theorem C3_rebalance_balanced_witness :
    (rebalance_data takeSample idShuffle [⟨"a", [], [], 0⟩, ⟨"b", [], [], 1⟩]).countP
        (fun it => decide (it.yt < 1/2))
      = (rebalance_data takeSample idShuffle [⟨"a", [], [], 0⟩, ⟨"b", [], [], 1⟩]).countP
        (fun it => decide (it.yt > 1/2)) :=
  (C3_rebalance_balanced takeSample idShuffle [⟨"a", [], [], 0⟩, ⟨"b", [], [], 1⟩]
    (fun l n h => ⟨by simp [takeSample]; omega, fun x hx => List.mem_of_mem_take hx⟩)
    (fun _ l => List.Perm.refl l)).1

/-- C5: rebalancing fabricates nothing: every output item is an input item,
and the output is no longer than the input. -/
theorem C5_rebalance_subset (sample : List Item → ℕ → List Item)
    (shuffle : ℕ → List Item → List Item) (items : List Item)
    (Hs : ∀ l n, n ≤ l.length → (sample l n).length = n ∧ ∀ x ∈ sample l n, x ∈ l)
    (Hsh : ∀ i l, List.Perm (shuffle i l) l) :
    (∀ x ∈ rebalance_data sample shuffle items, x ∈ items)
    ∧ (rebalance_data sample shuffle items).length ≤ items.length := by
  obtain ⟨ns, ps, hperm, hns, hps, hlns, hlps⟩ := rebalance_spec sample shuffle items Hs Hsh
  constructor
  · intro x hx
    rcases List.mem_append.mp (hperm.mem_iff.mp hx) with h | h
    · exact (hns x h).1
    · exact (hps x h).1
  · rw [hperm.length_eq, List.length_append, hlns, hlps]
    have h1 := filter_neg_pos_length_le items
    have h2 := Nat.min_le_left (items.filter (fun it => decide (it.yt < 1/2))).length
      (items.filter (fun it => decide (it.yt > 1/2))).length
    have h3 := Nat.min_le_right (items.filter (fun it => decide (it.yt < 1/2))).length
      (items.filter (fun it => decide (it.yt > 1/2))).length
    omega

/-- Witness for C5 at a concrete list with an excess positive class. -/
theorem C5_rebalance_subset_witness :
    (rebalance_data takeSample idShuffle
      [⟨"a", [], [], 0⟩, ⟨"b", [], [], 1⟩, ⟨"c", [], [], 1⟩]).length
      ≤ ([⟨"a", [], [], 0⟩, ⟨"b", [], [], 1⟩, ⟨"c", [], [], 1⟩] : List Item).length :=
  (C5_rebalance_subset takeSample idShuffle
    [⟨"a", [], [], 0⟩, ⟨"b", [], [], 1⟩, ⟨"c", [], [], 1⟩]
    (fun l n h => ⟨by simp [takeSample]; omega, fun x hx => List.mem_of_mem_take hx⟩)
    (fun _ l => List.Perm.refl l)).2

lemma foldl_expand_gen (A B : Item → List Item) :
    ∀ (l : List Item) (acc : List Item),
      l.foldl (fun a it => (a ++ A it) ++ B it) acc
        = acc ++ l.foldl (fun a it => (a ++ A it) ++ B it) [] := by
  intro l
  induction l with
  | nil => intro acc; simp
  | cons it l ih =>
    intro acc
    simp only [List.foldl_cons]
    rw [ih ((acc ++ A it) ++ B it), ih (([] ++ A it) ++ B it)]
    simp [List.append_assoc]

lemma expand_to_all_cons (it : Item) (l : List Item) :
    expand_to_all (it :: l)
      = (it.x_mat.map (fun row => Item.mk it.author [] row.dropLast.dropLast (row.getLastD 0))
          ++ [Item.mk it.author [] it.fy ((it.yt + 1) / 2)]) ++ expand_to_all l := by
  unfold expand_to_all
  simp only [List.foldl_cons]
  rw [foldl_expand_gen
    (fun it => it.x_mat.map (fun row => Item.mk it.author [] row.dropLast.dropLast (row.getLastD 0)))
    (fun it => [Item.mk it.author [] it.fy ((it.yt + 1) / 2)])]
  simp [List.append_assoc]

lemma expand_to_all_append :
    ∀ l1 l2 : List Item, expand_to_all (l1 ++ l2) = expand_to_all l1 ++ expand_to_all l2 := by
  intro l1
  induction l1 with
  | nil =>
    intro l2
    have : expand_to_all ([] : List Item) = [] := rfl
    simp [this]
  | cons it l ih =>
    intro l2
    simp only [List.cons_append, expand_to_all_cons, ih, List.append_assoc]

/-- C6: for an author entry whose history matrix has H rows, `_expand_to_all`
contributes exactly H + 1 examples at the position of that entry: one per
history row, carrying the empty history, the row shorn of its final two
fields as features and the final row field as label, plus the
current-revision example with label renormalised to (yt + 1) / 2. -/
theorem C6_expand_structure (pre post : List Item) (a : String) (xm : Mat) (fy : Vec) (yt : ℚ) :
    expand_to_all (pre ++ ⟨a, xm, fy, yt⟩ :: post)
      = expand_to_all pre
        ++ (xm.map (fun row => Item.mk a [] row.dropLast.dropLast (row.getLastD 0))
            ++ [Item.mk a [] fy ((yt + 1) / 2)])
        ++ expand_to_all post
    ∧ (xm.map (fun row => Item.mk a [] row.dropLast.dropLast (row.getLastD 0))
        ++ [Item.mk a [] fy ((yt + 1) / 2)]).length = xm.length + 1 := by
  constructor
  · rw [expand_to_all_append, expand_to_all_cons]
    simp [List.append_assoc]
  · simp

/-- C10: no item the rebalance returns carries the label 1/2 exactly (such
items fall in neither partition), and in particular the current-revision
example that `_expand_to_all` produces from an entry with original label 0
(renormalised to (0 + 1) / 2 = 1/2) is present in the expanded list but
never in the rebalanced result used by the train_nn_only path. -/
theorem C10_half_label_dropped (sample : List Item → ℕ → List Item)
    (shuffle : ℕ → List Item → List Item)
    (Hs : ∀ l n, n ≤ l.length → (sample l n).length = n ∧ ∀ x ∈ sample l n, x ∈ l)
    (Hsh : ∀ i l, List.Perm (shuffle i l) l)
    (items : List Item) (e : Item) (he : e ∈ items) (hyt : e.yt = 0) :
    (∀ l : List Item, ∀ x ∈ rebalance_data sample shuffle l, x.yt ≠ 1/2)
    ∧ Item.mk e.author [] e.fy ((e.yt + 1) / 2) ∈ expand_to_all items
    ∧ Item.mk e.author [] e.fy ((e.yt + 1) / 2) ∉ rebalance_data sample shuffle (expand_to_all items) := by
  have hmain : ∀ l : List Item, ∀ x ∈ rebalance_data sample shuffle l, x.yt ≠ 1/2 := by
    intro l x hx
    obtain ⟨ns, ps, hperm, hns, hps, -, -⟩ := rebalance_spec sample shuffle l Hs Hsh
    rcases List.mem_append.mp (hperm.mem_iff.mp hx) with h | h
    · exact ne_of_lt (hns x h).2
    · exact ne_of_gt (hps x h).2
  have hmem : Item.mk e.author [] e.fy ((e.yt + 1) / 2) ∈ expand_to_all items := by
    obtain ⟨pre, post, rfl⟩ := List.append_of_mem he
    rw [show (e :: post) = [e] ++ post from rfl, expand_to_all_append, expand_to_all_append]
    have : Item.mk e.author [] e.fy ((e.yt + 1) / 2) ∈ expand_to_all [e] := by
      rw [show ([e] : List Item) = e :: [] from rfl, expand_to_all_cons]
      simp
    simp [this]
  refine ⟨hmain, hmem, fun hc => ?_⟩
  have := hmain (expand_to_all items) _ hc
  simp only [hyt] at this
  norm_num at this

/-- Witness for C10 at a concrete one-entry list with label 0. -/
theorem C10_half_label_dropped_witness :
    Item.mk "a" [] [1] (((0 : ℚ) + 1) / 2) ∈ expand_to_all [⟨"a", [], [1], 0⟩]
    ∧ Item.mk "a" [] [1] (((0 : ℚ) + 1) / 2)
        ∉ rebalance_data takeSample idShuffle (expand_to_all [⟨"a", [], [1], 0⟩]) :=
  ⟨(C10_half_label_dropped takeSample idShuffle
      (fun l n h => ⟨by simp [takeSample]; omega, fun x hx => List.mem_of_mem_take hx⟩)
      (fun _ l => List.Perm.refl l) [⟨"a", [], [1], 0⟩] ⟨"a", [], [1], 0⟩ (by simp) rfl).2.1,
   (C10_half_label_dropped takeSample idShuffle
      (fun l n h => ⟨by simp [takeSample]; omega, fun x hx => List.mem_of_mem_take hx⟩)
      (fun _ l => List.Perm.refl l) [⟨"a", [], [1], 0⟩] ⟨"a", [], [1], 0⟩ (by simp) rfl).2.2⟩

lemma getD_range_map (n i : ℕ) (f : ℕ → ℚ) (h : i < n) :
    ((List.range n).map f).getD i 0 = f i := by
  rw [List.getD_eq_getElem?_getD, List.getElem?_map, List.getElem?_range h]
  rfl

lemma getD_replicate_zero (n i : ℕ) : (List.replicate n (0 : ℚ)).getD i 0 = 0 := by
  rw [List.getD_eq_getElem?_getD, List.getElem?_replicate]
  split <;> rfl

/-- The zero-initialised predictor reads out 0 on every input. -/
lemma dnnForward_init (n : ℕ) (x : Vec) : dnnForward (dnnInit n) x = 0 := by
  unfold dnnForward dnnInit
  apply List.sum_eq_zero
  intro q hq
  rcases List.mem_map.mp hq with ⟨i, _, rfl⟩
  simp [getD_replicate_zero]

lemma sum_pos_of_nonneg_of_mem_pos (q : ℚ) :
    ∀ l : List ℚ, (∀ r ∈ l, 0 ≤ r) → q ∈ l → 0 < q → 0 < l.sum := by
  intro l
  induction l with
  | nil => intro _ hq _; cases hq
  | cons a t ih =>
    intro h0 hq hqp
    rcases List.mem_cons.mp hq with rfl | hmem
    · have ht : 0 ≤ t.sum := List.sum_nonneg (fun b hb => h0 b (List.mem_cons_of_mem _ hb))
      rw [List.sum_cons]
      exact add_pos_of_pos_of_nonneg hqp ht
    · have ha : 0 ≤ a := h0 a (List.mem_cons_self _ _)
      rw [List.sum_cons]
      exact add_pos_of_nonneg_of_pos ha (ih (fun b hb => h0 b (List.mem_cons_of_mem _ hb)) hmem hqp)

/-- One backward pass from the zero initialisation with a nonzero loss
gradient and a feature vector that is nonzero somewhere below index 12
changes the forward read-out on that same feature vector. -/
lemma dnn_first_update (x : Vec) (dy : ℚ) (hdy : dy ≠ 0)
    (i0 : ℕ) (hi0 : i0 < 12) (hx : x.getD i0 0 ≠ 0) :
    dnnForward (dnnBackward (dnnInit 12) x dy).1 x ≠ dnnForward (dnnInit 12) x := by
  rw [dnnForward_init]
  unfold dnnBackward dnnInit
  simp only [List.length_replicate]
  rw [dnnForward]
  simp only [List.length_map, List.length_range]
  have hmap : (List.range 12).map
      (fun i => (((List.range 12).map
          (fun i => (List.replicate 12 (0:ℚ)).getD i 0
            - dy * x.getD i 0 / (1 + ((List.range 12).map
                (fun i => 9/10 * (List.replicate 12 (0:ℚ)).getD i 0
                  + 1/10 * (dy * x.getD i 0) ^ 2)).getD i 0))).getD i 0) * x.getD i 0)
      = (List.range 12).map
        (fun i => (-dy) * ((x.getD i 0) ^ 2 / (1 + 1/10 * (dy * x.getD i 0) ^ 2))) := by
    apply List.map_congr_left
    intro i hi
    have hi' : i < 12 := List.mem_range.mp hi
    rw [getD_range_map _ _ _ hi', getD_range_map _ _ _ hi']
    simp only [getD_replicate_zero]
    ring
  rw [hmap, List.sum_map_mul_left]
  have hS : 0 < ((List.range 12).map
      (fun i => (x.getD i 0) ^ 2 / (1 + 1/10 * (dy * x.getD i 0) ^ 2))).sum := by
    apply sum_pos_of_nonneg_of_mem_pos
      ((x.getD i0 0) ^ 2 / (1 + 1/10 * (dy * x.getD i0 0) ^ 2))
    · intro r hr
      rcases List.mem_map.mp hr with ⟨i, _, rfl⟩
      have hden : (0:ℚ) < 1 + 1/10 * (dy * x.getD i 0) ^ 2 := by positivity
      exact div_nonneg (sq_nonneg _) (le_of_lt hden)
    · exact List.mem_map_of_mem _ (List.mem_range.mpr hi0)
    · have hnum : (0:ℚ) < (x.getD i0 0) ^ 2 :=
        lt_of_le_of_ne (sq_nonneg _) (Ne.symm (pow_ne_zero 2 hx))
      have hden : (0:ℚ) < 1 + 1/10 * (dy * x.getD i0 0) ^ 2 := by positivity
      exact div_pos hnum hden
  exact mul_ne_zero (neg_ne_zero.mpr hdy) (ne_of_gt hS)

/-- A full k = 0 run of one iteration over a single-item list, spelled out:
the encoder is bypassed, the predictor input is exactly fy, and the final
predictor state is one backward update from the initial zero state. -/
lemma run_k0_single {S : Type} (enc : EncoderModel S) (s0 : S)
    (shuffle : ℕ → List Item → List Item) (Hsh : ∀ i l, List.Perm (shuffle i l) l)
    (it : Item) (hyt : it.yt ≠ 0) :
    train_nn_with_k_lstm_bits enc dnnPredictor shuffle s0 (dnnInit 12) [it]
        (some 0) 1 true none false
      = ⟨⟨s0, (dnnBackward (dnnInit 12) it.fy (2 * (dnnForward (dnnInit 12) it.fy - it.yt))).1, 1,
           [(dnnForward (dnnInit 12) it.fy - it.yt) ^ 2]⟩, [it],
         [MCall.nnFwd it.fy, MCall.nnBwd (2 * (dnnForward (dnnInit 12) it.fy - it.yt))]⟩ := by
  have hsh : shuffle 0 [it] = [it] := List.perm_singleton.mp (Hsh 0 [it])
  unfold train_nn_with_k_lstm_bits
  simp only [train_loop, hsh, train_iter_items]
  simp [train_step, train_item_forward, hyt, posK, pyTake, dnnPredictor]

/-- C4 amended: in every training run with k = 0 -- any encoder, predictor,
shuffle oracle, initial states, data list, iteration count, quality flag,
fix_bit_val and weighting flag -- the encoder backward is never invoked;
and, for the spec-modelled zero-initialised predictor, one iteration over a
single-item list whose target is non-falsy and whose feature vector is
nonzero at some index below the predictor input width 12 does change the
predictor parameter state, witnessed by a different forward output on that
same feature vector. -/
theorem C4_amended {S : Type} (enc : EncoderModel S) (s0 : S)
    (shuffle : ℕ → List Item → List Item) (Hsh : ∀ i l, List.Perm (shuffle i l) l)
    (a : String) (xm : Mat) (fy : Vec) (yt : ℚ) (hyt : yt ≠ 0)
    (i0 : ℕ) (hi0 : i0 < 12) (hfy : fy.getD i0 0 ≠ 0) :
    (∀ (S' T : Type) (enc' : EncoderModel S') (pred : PredictorModel T)
        (shuffle' : ℕ → List Item → List Item) (s0' : S') (t0 : T)
        (data : List Item) (N : ℕ) (q : Bool) (fbv : Option Vec) (w : Bool),
        ∀ ev ∈ (train_nn_with_k_lstm_bits enc' pred shuffle' s0' t0 data
            (some 0) N q fbv w).trace, isEncBwd ev = false)
    ∧ dnnForward (train_nn_with_k_lstm_bits enc dnnPredictor shuffle s0 (dnnInit 12)
        [⟨a, xm, fy, yt⟩] (some 0) 1 true none false).state.nnet fy
      ≠ dnnForward (dnnInit 12) fy := by
  constructor
  · intro S' T enc' pred shuffle' s0' t0 data N q fbv w
    exact (train_loop_invariant enc' pred shuffle' (some 0) q fbv w (fun _ => True)
      (fun ev => isEncBwd ev = false) (fun _ _ _ => trivial)
      (fun st it _ => train_step_no_encBwd_of_not_posK enc' pred (some 0) q fbv w rfl st it)
      (fun _ _ => trivial) N 0 ⟨s0', t0, 1, []⟩ data [] trivial (by simp)).2
  · have hrun := run_k0_single enc s0 shuffle Hsh ⟨a, xm, fy, yt⟩ hyt
    rw [hrun]
    have hdy : 2 * (dnnForward (dnnInit 12) fy - yt) ≠ 0 := by
      rw [dnnForward_init]
      intro hc
      apply hyt
      linarith
    exact dnn_first_update fy _ hdy i0 hi0 hfy

/-- Witness for C4 amended at a concrete single-item run: the trace holds no
encoder backward and the predictor read-out on the feature vector changed. -/
theorem C4_amended_witness :
    MCall.encBwd [] 1 ∉ (train_nn_with_k_lstm_bits encQ dnnPredictor idShuffle 0 (dnnInit 12)
        [⟨"a", [], [1], 1⟩] (some 0) 1 true none false).trace
    ∧ dnnForward (train_nn_with_k_lstm_bits encQ dnnPredictor idShuffle 0 (dnnInit 12)
        [⟨"a", [], [1], 1⟩] (some 0) 1 true none false).state.nnet [1]
      ≠ dnnForward (dnnInit 12) [1] := by
  have h := C4_amended encQ 0 idShuffle (fun _ l => List.Perm.refl l) "a" [] [1] 1
    (by norm_num) 0 (by norm_num) (by norm_num [List.getD])
  refine ⟨fun hc => ?_, h.2⟩
  have h1 := h.1 ℚ DNNModel encQ dnnPredictor idShuffle 0 (dnnInit 12)
    ([⟨"a", [], [1], 1⟩] : List Item) 1 true none false _ hc
  simpa [isEncBwd] using h1
